import Mathlib

/-!
Verification of the comment-classifier FSM (`src/main.rs`).

The program is a two-stage pipeline: `lex` maps each input character to one
of five symbolic tokens, and `parse` runs a finite-state machine over the
token list, accumulating text into a buffer `built` and emitting classified
segments (`El.code`, `El.singleLineComment`, `El.blockComment`).

The embedding below works over `List Char` (the Rust code iterates over
`input.chars()`), models the `panic!` in the `State::Comment` arm as
`Option.none`, and keeps the Rust structure: `step` is the body of the match
on `(state, token)`, `parseFull` is the loop (also exposing the final state
and buffer), and `parse` projects the emitted segment list, exactly as the
Rust `parse` returns `parsed` without flushing the buffer.
-/

namespace FsmJavaComments

/-- Token alphabet of the tokenizer (`enum Token` in main.rs). -/
inductive Token where
  | char : Char → Token
  | star : Token
  | newLine : Token
  | frontSlash : Token
  | doubleQuote : Token
deriving DecidableEq, Repr

/-- Output segments (`enum El` in main.rs); payloads are the accumulated text. -/
inductive El where
  | singleLineComment : List Char → El
  | blockComment : List Char → El
  | code : List Char → El
deriving DecidableEq, Repr

/-- Parser states (`enum State` in main.rs). -/
inductive State where
  | singleLineComment
  | blockComment
  | blockCommentEnd
  | comment
  | code
  | strLiteral
deriving DecidableEq, Repr

/-- The body of the `match c` in `lex` (main.rs lines 34-40). -/
def lexChar (c : Char) : Token :=
  match c with
  | '*' => Token.star
  | '\n' => Token.newLine
  | '/' => Token.frontSlash
  | '"' => Token.doubleQuote
  | c => Token.char c

/-- `lex` (main.rs lines 31-43): one token per character, in order. -/
def lex : List Char → List Token
  | [] => []
  | c :: cs => lexChar c :: lex cs

/-- One transition of the state machine (the body of the `for` loop of
`parse`, main.rs lines 50-199). Given the current state, the buffer
`built` and the next token, it returns the next state, the new buffer and
the list of segments pushed to `parsed` during this step; `none` models the
`panic!` in the `State::Comment` arm. -/
def step : State → List Char → Token → Option (State × List Char × List El)
  | .code, built, t =>
    match t with
    | .frontSlash =>
      if built = [] then some (.comment, built, [])
      else some (.comment, [], [El.code built])
    | .char c => some (.code, built ++ [c], [])
    | .star => some (.code, built ++ ['*'], [])
    | .newLine => some (.code, [], [El.code built])
    | .doubleQuote =>
      if built = [] then some (.strLiteral, built, [])
      else some (.strLiteral, [], [El.code built])
  | .comment, built, .frontSlash => some (.singleLineComment, built, [])
  | .comment, built, .star => some (.blockComment, built, [])
  | .comment, _, _ => none
  | .singleLineComment, built, t =>
    match t with
    | .newLine => some (.code, [], [El.singleLineComment built])
    | .char c => some (.singleLineComment, built ++ [c], [])
    | .star => some (.singleLineComment, built ++ ['*'], [])
    | .frontSlash => some (.singleLineComment, built ++ ['/'], [])
    | .doubleQuote => some (.singleLineComment, built ++ ['"'], [])
  | .blockComment, built, t =>
    match t with
    | .star => some (.blockCommentEnd, built, [])
    | .char c => some (.blockComment, built ++ [c], [])
    | .frontSlash => some (.blockComment, built ++ ['/'], [])
    | .doubleQuote => some (.blockComment, built, [])
    | .newLine => some (.blockComment, built ++ ['\n'], [])
  | .strLiteral, built, t =>
    match t with
    | .doubleQuote => some (.code, [], [El.code built])
    | .frontSlash => some (.strLiteral, built ++ ['/'], [])
    | .star => some (.strLiteral, built ++ ['*'], [])
    | .newLine => some (.strLiteral, built ++ ['\n'], [])
    | .char c => some (.strLiteral, built ++ [c], [])
  | .blockCommentEnd, built, t =>
    match t with
    | .frontSlash => some (.code, [], [El.blockComment built])
    | .star => some (.blockComment, built ++ ['*', '*'], [])
    | .doubleQuote => some (.blockComment, built ++ ['*', '"'], [])
    | .char c => some (.blockComment, built ++ ['*', c], [])
    | .newLine => some (.blockComment, built ++ ['*', '\n'], [])

/-- The loop of `parse` (main.rs lines 45-202), exposing the final state and
buffer in addition to the emitted segments. -/
def parseFull : List Token → State → List Char → List El →
    Option (State × List Char × List El)
  | [], st, built, parsed => some (st, built, parsed)
  | t :: ts, st, built, parsed =>
    match step st built t with
    | none => none
    | some (st', built', out) => parseFull ts st' built' (parsed ++ out)

/-- `parse` (main.rs lines 45-202): run the machine from `State::Code` with an
empty buffer and return the emitted segments; the final buffer is dropped,
exactly as the Rust code returns `parsed` after the loop. -/
def parse (tokens : List Token) : Option (List El) :=
  (parseFull tokens .code [] []).map (fun r => r.2.2)

/-- The character a token stands for (inverse of the tokenizer's mapping). -/
def tokChar : Token → Char
  | .char c => c
  | .star => '*'
  | .newLine => '\n'
  | .frontSlash => '/'
  | .doubleQuote => '"'

/-- Map a token list back to the text it was lexed from. -/
def untok (ts : List Token) : List Char := ts.map tokChar

/-- Reinsert the delimiters implied by a segment variant, as the round-trip
contract of the spec describes them: `//` + text + newline for a single-line
comment, `/*` + text + `*/` for a block comment, text + newline for code. -/
def reconEl : El → List Char
  | .singleLineComment t => '/' :: '/' :: (t ++ ['\n'])
  | .blockComment t => '/' :: '*' :: (t ++ ['*', '/'])
  | .code t => t ++ ['\n']

/-- Reconstruction of a whole segment list. -/
def recon (els : List El) : List Char := (els.map reconEl).flatten

/-- The text of the input already consumed that the machine has not yet
emitted: the buffer plus the delimiter characters swallowed on the way into
the current state. -/
def pending : State → List Char → List Char
  | .code, b => b
  | .comment, b => b ++ ['/']
  | .singleLineComment, b => '/' :: '/' :: b
  | .blockComment, b => '/' :: '*' :: b
  | .blockCommentEnd, b => '/' :: '*' :: (b ++ ['*'])
  | .strLiteral, b => '"' :: b

/-- `true` when, along the whole (non-aborting) run, every `/` met in the
`Code` state finds an empty buffer — i.e. every comment opener sits
immediately after a segment boundary, so no `Code` segment is flushed
without its newline delimiter. -/
def goodOpeners : State → List Char → List Token → Bool
  | _, _, [] => true
  | st, b, t :: ts =>
    match step st b t with
    | none => false
    | some (st', b', _) =>
      (match st, t with
       | State.code, Token.frontSlash => b.isEmpty
       | _, _ => true) && goodOpeners st' b' ts

/-- The abort condition as the spec states it: the run reaches the
disambiguation state (`Comment`, entered on a `/` seen in `Code`) and the
next token is neither `/` nor `*`. The state transitions of the machine do
not depend on the buffer, so this predicate tracks states alone. -/
def malformedOpener : State → List Token → Bool
  | _, [] => false
  | .comment, t :: ts =>
    match t with
    | .frontSlash => malformedOpener .singleLineComment ts
    | .star => malformedOpener .blockComment ts
    | _ => true
  | .code, t :: ts =>
    match t with
    | .frontSlash => malformedOpener .comment ts
    | .doubleQuote => malformedOpener .strLiteral ts
    | _ => malformedOpener .code ts
  | .singleLineComment, t :: ts =>
    match t with
    | .newLine => malformedOpener .code ts
    | _ => malformedOpener .singleLineComment ts
  | .blockComment, t :: ts =>
    match t with
    | .star => malformedOpener .blockCommentEnd ts
    | _ => malformedOpener .blockComment ts
  | .strLiteral, t :: ts =>
    match t with
    | .doubleQuote => malformedOpener .code ts
    | _ => malformedOpener .strLiteral ts
  | .blockCommentEnd, t :: ts =>
    match t with
    | .frontSlash => malformedOpener .code ts
    | _ => malformedOpener .blockComment ts

/-- The tokenizer mapping as the spec words it: `*`→Star, newline→NewLine,
`/`→FrontSlash, `"`→DoubleQuote, any other character→Char(that character).
Stated independently of `lex` to compare the two. -/
def specCharToken (c : Char) : Token :=
  if c = '*' then Token.star
  else if c = '\n' then Token.newLine
  else if c = '/' then Token.frontSlash
  else if c = '"' then Token.doubleQuote
  else Token.char c

/-- The newline-terminated lines of a text, as the spec describes the
segmentation of plain code: content up to each newline, the trailing
newline stripped, a partial last line (no trailing newline) dropped. -/
def linesAux : List Char → List Char → List (List Char)
  | [], _ => []
  | c :: rest, acc =>
    if c = '\n' then acc :: linesAux rest [] else linesAux rest (acc ++ [c])

/-- The partial last line left over after `linesAux`. -/
def lastPartial : List Char → List Char → List Char
  | [], acc => acc
  | c :: rest, acc =>
    if c = '\n' then lastPartial rest [] else lastPartial rest (acc ++ [c])

-- Sanity checks against the repository's own test suite.
example :
    parse (lex "//single line comment\n".toList) =
      some [El.singleLineComment "single line comment".toList] := by decide
example :
    parse (lex "/*block comment*/".toList) =
      some [El.blockComment "block comment".toList] := by decide
example :
    parse (lex "let x = 1;\n".toList) =
      some [El.code "let x = 1;".toList] := by decide
example :
    parse (lex "/*\n*multi line block comment\n*/".toList) =
      some [El.blockComment "\n*multi line block comment\n".toList] := by decide
example :
    parse (lex "//////\n".toList) =
      some [El.singleLineComment "////".toList] := by decide
example :
    parse (lex "\"/string w/ slash /\"".toList) =
      some [El.code "/string w/ slash /".toList] := by decide

/-! ### Infrastructure lemmas -/

theorem lexChar_spec (c : Char) : lexChar c = specCharToken c := by
  by_cases h1 : c = '*'
  · subst h1; rfl
  by_cases h2 : c = '\n'
  · subst h2; rfl
  by_cases h3 : c = '/'
  · subst h3; rfl
  by_cases h4 : c = '"'
  · subst h4; rfl
  unfold lexChar specCharToken
  split
  · exact absurd rfl h1
  · exact absurd rfl h2
  · exact absurd rfl h3
  · exact absurd rfl h4
  · simp [h1, h2, h3, h4]

theorem tokChar_lexChar (c : Char) : tokChar (lexChar c) = c := by
  rw [lexChar_spec]
  unfold specCharToken
  split
  · simp_all [tokChar]
  · split
    · simp_all [tokChar]
    · split
      · simp_all [tokChar]
      · split <;> simp_all [tokChar]

theorem lex_append (s t : List Char) : lex (s ++ t) = lex s ++ lex t := by
  induction s with
  | nil => rfl
  | cons c cs ih => simp [lex, ih]

theorem untok_lex (s : List Char) : untok (lex s) = s := by
  induction s with
  | nil => rfl
  | cons c cs ih => simp [lex, untok, tokChar_lexChar, untok] at ih ⊢; exact ih

theorem recon_append (p q : List El) : recon (p ++ q) = recon p ++ recon q := by
  simp [recon]

theorem parseFull_append (ts us : List Token) (st : State) (b : List Char)
    (p : List El) :
    parseFull (ts ++ us) st b p =
      (parseFull ts st b p).bind fun r => parseFull us r.1 r.2.1 r.2.2 := by
  induction ts generalizing st b p with
  | nil => simp [parseFull]
  | cons t ts ih =>
    simp only [List.cons_append, parseFull]
    cases hs : step st b t with
    | none => rfl
    | some r =>
      obtain ⟨st', b', out⟩ := r
      exact ih st' b' (p ++ out)

/-- One step of the machine extends the consumed text by exactly the
character of the token just read, as measured by `recon` of the emitted
segments plus the `pending` text of the reached configuration — provided the
token is not a quote, a `/` read in `Code` state finds an empty buffer, and
the disambiguation state holds an empty buffer. -/
theorem step_pending (st : State) (b : List Char) (t : Token) (st' : State)
    (b' : List Char) (out : List El)
    (hs : step st b t = some (st', b', out))
    (ht : t ≠ Token.doubleQuote)
    (hop : st = State.code → t = Token.frontSlash → b = [])
    (hcb : st = State.comment → b = []) :
    recon out ++ pending st' b' = pending st b ++ [tokChar t] ∧
      (st' = State.comment → b' = []) := by
  cases st <;> cases t <;> (try exact absurd rfl ht)
  case code.frontSlash =>
    obtain rfl : b = [] := hop rfl rfl
    simp only [step, if_pos, Option.some.injEq, Prod.mk.injEq] at hs
    obtain ⟨rfl, rfl, rfl⟩ := hs
    simp [pending, recon, tokChar]
  case comment.frontSlash =>
    obtain rfl : b = [] := hcb rfl
    simp only [step, Option.some.injEq, Prod.mk.injEq] at hs
    obtain ⟨rfl, rfl, rfl⟩ := hs
    simp [pending, recon, tokChar]
  case comment.star =>
    obtain rfl : b = [] := hcb rfl
    simp only [step, Option.some.injEq, Prod.mk.injEq] at hs
    obtain ⟨rfl, rfl, rfl⟩ := hs
    simp [pending, recon, tokChar]
  case comment.char c =>
    simp only [step] at hs
    exact Option.noConfusion hs
  case comment.newLine =>
    simp only [step] at hs
    exact Option.noConfusion hs
  all_goals
    simp only [step, Option.some.injEq, Prod.mk.injEq] at hs
  all_goals
    obtain ⟨rfl, rfl, rfl⟩ := hs
  all_goals
    simp [pending, recon, reconEl, tokChar, List.append_assoc]

/-- Along any non-aborting run with boundary-aligned comment openers and no
quote tokens, reconstruction of the emitted segments plus the pending text
equals the initial pending text plus the consumed characters. -/
theorem roundtrip_aux (ts : List Token) :
    ∀ st b p st' b' p',
    Token.doubleQuote ∉ ts →
    goodOpeners st b ts = true →
    (st = State.comment → b = []) →
    parseFull ts st b p = some (st', b', p') →
    recon p' ++ pending st' b' = recon p ++ pending st b ++ untok ts := by
  induction ts with
  | nil =>
    intro st b p st' b' p' _ _ _ h
    simp only [parseFull, Option.some.injEq, Prod.mk.injEq] at h
    obtain ⟨rfl, rfl, rfl⟩ := h
    simp [untok]
  | cons t ts ih =>
    intro st b p st' b' p' hq hg hc h
    have hqt : t ≠ Token.doubleQuote := fun he => hq (he ▸ List.mem_cons_self t ts)
    have hqts : Token.doubleQuote ∉ ts := fun hm => hq (List.mem_cons_of_mem t hm)
    simp only [parseFull] at h
    cases hs : step st b t with
    | none => rw [hs] at h; cases h
    | some r =>
      obtain ⟨st1, b1, out⟩ := r
      rw [hs] at h
      simp only [goodOpeners, hs, Bool.and_eq_true] at hg
      have hop : st = State.code → t = Token.frontSlash → b = [] := by
        intro h1 h2
        subst h1; subst h2
        simpa [List.isEmpty_iff] using hg.1
      have hsp := step_pending st b t st1 b1 out hs hqt hop hc
      have hrec := ih st1 b1 (p ++ out) st' b' p' hqts hg.2 hsp.2 h
      calc recon p' ++ pending st' b'
          = (recon p ++ recon out) ++ pending st1 b1 ++ untok ts := by
            rw [hrec, recon_append]
        _ = recon p ++ ((recon out ++ pending st1 b1) ++ untok ts) := by
            simp [List.append_assoc]
        _ = recon p ++ ((pending st b ++ [tokChar t]) ++ untok ts) := by
            rw [hsp.1]
        _ = recon p ++ pending st b ++ untok (t :: ts) := by
            simp [untok, List.append_assoc]

/-- The run aborts exactly when the state-level abort predicate fires; the
buffer and the already-emitted segments are irrelevant to abortion. -/
theorem aborts_aux (ts : List Token) :
    ∀ st b p, parseFull ts st b p = none ↔ malformedOpener st ts = true := by
  induction ts with
  | nil => intro st b p; simp [parseFull, malformedOpener]
  | cons t ts ih =>
    intro st b p
    cases st <;> cases t <;>
      simp only [parseFull, step, malformedOpener] <;>
      (try split_ifs) <;>
      simp [ih]

theorem step_strLiteral_lexChar (b : List Char) (c : Char) (hc : c ≠ '"') :
    step .strLiteral b (lexChar c) = some (.strLiteral, b ++ [c], []) := by
  rw [lexChar_spec]
  simp only [specCharToken]
  by_cases h1 : c = '*'
  · subst h1; simp [step]
  by_cases h2 : c = '\n'
  · subst h2; simp [step]
  by_cases h3 : c = '/'
  · subst h3; simp [step]
  simp [h1, h2, h3, hc, step]

theorem step_code_lexChar (b : List Char) (c : Char) (h1 : c ≠ '/')
    (h2 : c ≠ '"') (h3 : c ≠ '\n') :
    step .code b (lexChar c) = some (.code, b ++ [c], []) := by
  rw [lexChar_spec]
  simp only [specCharToken]
  by_cases h4 : c = '*'
  · subst h4; simp [step]
  simp [h1, h2, h3, h4, step]

/-- Inside a string literal, every quote-free character run is appended to
the buffer verbatim and the machine stays in `StrLiteral`. -/
theorem parseFull_strLiteral_run (s : List Char) :
    ∀ b p, '"' ∉ s →
    parseFull (lex s) .strLiteral b p = some (.strLiteral, b ++ s, p) := by
  induction s with
  | nil => intro b p _; simp [lex, parseFull]
  | cons c cs ih =>
    intro b p hq
    rw [List.mem_cons, not_or] at hq
    have hc : c ≠ '"' := fun h => hq.1 h.symm
    simp only [lex, parseFull, step_strLiteral_lexChar b c hc]
    rw [List.append_nil, ih (b ++ [c]) p hq.2]
    simp

/-- A slash-free, quote-free text processed from the `Code` state emits one
`Code` segment per newline-terminated line and leaves the partial last line
in the buffer. -/
theorem parseFull_code_run (s : List Char) :
    ∀ acc p, '/' ∉ s → '"' ∉ s →
    parseFull (lex s) .code acc p =
      some (.code, lastPartial s acc, p ++ (linesAux s acc).map El.code) := by
  induction s with
  | nil => intro acc p _ _; simp [lex, parseFull, lastPartial, linesAux]
  | cons c cs ih =>
    intro acc p h1 h2
    rw [List.mem_cons, not_or] at h1 h2
    by_cases hn : c = '\n'
    · subst hn
      have hl : lexChar '\n' = Token.newLine := rfl
      simp only [lex, hl, parseFull, step]
      rw [ih [] (p ++ [El.code acc]) h1.2 h2.2]
      simp [lastPartial, linesAux]
    · have hc : c ≠ '/' := fun h => h1.1 h.symm
      have hq : c ≠ '"' := fun h => h2.1 h.symm
      simp only [lex, parseFull, step_code_lexChar acc c hc hq hn]
      rw [List.append_nil, ih (acc ++ [c]) p h1.2 h2.2]
      simp [lastPartial, linesAux, hn]

/-- A run of only `Char` and `Star` tokens from the `Code` state grows the
buffer and emits nothing. -/
theorem parseFull_chars_run (us : List Token) :
    ∀ b p,
    (∀ u ∈ us,
      u ≠ Token.newLine ∧ u ≠ Token.frontSlash ∧ u ≠ Token.doubleQuote) →
    ∃ b', parseFull us .code b p = some (.code, b', p) := by
  induction us with
  | nil => intro b p _; exact ⟨b, by simp [parseFull]⟩
  | cons u us ih =>
    intro b p h
    have hu := h u (List.mem_cons_self u us)
    have hus : ∀ v ∈ us,
        v ≠ Token.newLine ∧ v ≠ Token.frontSlash ∧ v ≠ Token.doubleQuote :=
      fun v hv => h v (List.mem_cons_of_mem u hv)
    cases u with
    | char c =>
      simp only [parseFull, step]
      rw [List.append_nil]
      exact ih (b ++ [c]) p hus
    | star =>
      simp only [parseFull, step]
      rw [List.append_nil]
      exact ih (b ++ ['*']) p hus
    | newLine => exact absurd rfl hu.1
    | frontSlash => exact absurd rfl hu.2.1
    | doubleQuote => exact absurd rfl hu.2.2

/-- Appending a final newline to a newline-free text closes exactly one
line holding the accumulated text. -/
theorem linesAux_append_newline (t : List Char) :
    ∀ acc, '\n' ∉ t → linesAux (t ++ ['\n']) acc = [acc ++ t] := by
  induction t with
  | nil => intro acc _; simp [linesAux]
  | cons c cs ih =>
    intro acc h
    rw [List.mem_cons, not_or] at h
    have hc : c ≠ '\n' := fun he => h.1 he.symm
    simp [linesAux, hc, ih (acc ++ [c]) h.2]

/-! ### Claim theorems -/

/-- C1, counterexample: the round-trip contract fails as stated. The string
literal `"a"` (no backslash escape anywhere) is accepted and classified as
`[Code "a"]`, but every reading of the reinsertion rule for `Code` (text
plus newline, or text at end of input) rebuilds `a`-plus-delimiter, never
the original quoted input. An input ending mid-code-run (`a`) rebuilds to
the empty text, and a comment opener mid-line (`ab//c\n`) rebuilds with a
newline the input never had. -/
theorem c1_roundtrip_counterexample :
    (parse (lex "\"a\"".toList) = some [El.code ['a']] ∧
      recon [El.code ['a']] ≠ "\"a\"".toList ∧
      (['a'] : List Char) ≠ "\"a\"".toList) ∧
    (parse (lex "a".toList) = some [] ∧ recon [] ≠ "a".toList) ∧
    (parse (lex "ab//c\n".toList) =
        some [El.code ['a', 'b'], El.singleLineComment ['c']] ∧
      recon [El.code ['a', 'b'], El.singleLineComment ['c']] ≠
        "ab//c\n".toList) := by
  decide

/-- C1 (amended): for every input that contains no double quote, in which
every comment opener starts at a segment boundary, and whose accepted run
ends back in the `Code` state with an empty accumulator (trailing newline or
`*/`), concatenating all segment payloads with the delimiters implied by
each variant (`//`+text+newline, `/*`+text+`*/`, text+newline for code)
reconstructs exactly the original input. -/
theorem c1_roundtrip_amended (s : List Char) (p : List El)
    (hq : Token.doubleQuote ∉ lex s)
    (hg : goodOpeners State.code [] (lex s) = true)
    (hrun : parseFull (lex s) State.code [] [] = some (State.code, [], p)) :
    recon p = s := by
  have h := roundtrip_aux (lex s) State.code [] [] State.code [] p hq hg
    (fun _ => rfl) hrun
  simpa [pending, recon, untok_lex] using h

theorem c1_roundtrip_amended_witness :
    recon [El.singleLineComment ['a'], El.blockComment ['b'], El.code ['x']] =
      "//a\n/*b*/x\n".toList :=
  c1_roundtrip_amended "//a\n/*b*/x\n".toList
    [El.singleLineComment ['a'], El.blockComment ['b'], El.code ['x']]
    (by decide) (by decide) (by decide)

/-- C2: the classifier aborts exactly on a malformed comment opener — a `/`
seen in `Code` state whose follower is neither `/` nor `*` — and on nothing
else; in particular `"/x"` aborts. `malformedOpener` is precisely that
condition on the state-trace. -/
theorem c2_abort_characterization :
    parse (lex "/x".toList) = none ∧
    ∀ ts : List Token, parse ts = none ↔ malformedOpener State.code ts = true := by
  refine ⟨by decide, fun ts => ?_⟩
  rw [parse, Option.map_eq_none']
  exact aborts_aux ts State.code [] []

theorem c2_abort_characterization_witness :
    parse [Token.char 'a', Token.frontSlash, Token.newLine] = none :=
  (c2_abort_characterization.2 _).mpr (by decide)

/-- C3: evaluation at the failing inputs. The spec's own example
`/*\n*c\n*/` does hold, but for the block-comment body `*` (input `/***/`)
and for a two-star run before the closer (input `/*x**/`) the machine
consumes both stars as content, returns to `BlockComment`, misses the `*/`
closer that is present, and emits nothing at all — contradicting the
source's own header comment ("a block comment ... ends at the first star
slash") and the claimed `BlockComment(body)` output. -/
theorem c3_block_comment_close_bug :
    parse (lex "/***/".toList) = some [] ∧
    parse (lex "/*x**/".toList) = some [] ∧
    parse (lex "/*\n*c\n*/".toList) = some [El.blockComment "\n*c\n".toList] ∧
    parse (lex "/*x***/".toList) = some [El.blockComment "x**".toList] := by
  decide

/-- C4, counterexample: a `"` inside a single-line comment does appear in
the emitted comment text — `//a"b` + newline yields
`SingleLineComment("a\"b")` with the quote retained, refuting "never
appears in the emitted comment text". -/
theorem c4_quote_in_comment_counterexample :
    parse (lex "//a\"b\n".toList) =
      some [El.singleLineComment ['a', '"', 'b']] ∧
    '"' ∈ ['a', '"', 'b'] := by decide

/-- C4 (amended): a `"` met in a comment state never switches the machine
into string-literal mode, but only the `BlockComment` state drops it from
the text: `SingleLineComment` retains it verbatim, and `BlockCommentEnd`
retains it after the replayed buffered `*`. The claim's block-comment
example `/* a"b */` = `[BlockComment(" ab ")]` does hold. -/
theorem c4_quote_in_comment_amended :
    (∀ b : List Char,
      step State.singleLineComment b Token.doubleQuote =
        some (State.singleLineComment, b ++ ['"'], [])) ∧
    (∀ b : List Char,
      step State.blockComment b Token.doubleQuote =
        some (State.blockComment, b, [])) ∧
    (∀ b : List Char,
      step State.blockCommentEnd b Token.doubleQuote =
        some (State.blockComment, b ++ ['*', '"'], [])) ∧
    parse (lex "/* a\"b */".toList) = some [El.blockComment " ab ".toList] :=
  ⟨fun _ => rfl, fun _ => rfl, fun _ => rfl, by decide⟩

/-- C5: a comment marker inside a string literal never starts a comment:
for any quote-free body, the whole literal is classified as one `Code`
segment carrying the body verbatim (every `/` and `*` included). -/
theorem c5_string_literal_markers (s : List Char) (hq : '"' ∉ s) :
    parse (lex ('"' :: (s ++ ['"']))) = some [El.code s] := by
  unfold parse
  have hdq : lexChar '"' = Token.doubleQuote := rfl
  have hlex : lex ('"' :: (s ++ ['"'])) =
      [Token.doubleQuote] ++ (lex s ++ [Token.doubleQuote]) := by
    simp [lex, lex_append, hdq]
  rw [hlex, parseFull_append]
  have h1 : parseFull [Token.doubleQuote] State.code [] [] =
      some (State.strLiteral, [], []) := by decide
  rw [h1, Option.some_bind, parseFull_append,
    parseFull_strLiteral_run s [] [] hq, Option.some_bind]
  simp [parseFull, step]

theorem c5_string_literal_markers_witness :
    parse (lex ('"' :: ("a//b".toList ++ ['"']))) =
      some [El.code "a//b".toList] :=
  c5_string_literal_markers "a//b".toList (by decide)

/-- C6: on an input with no `/` and no `"`, classification yields exactly
one `Code` segment per newline-terminated line, in order, each carrying the
line stripped of its newline (a blank line giving an empty segment). -/
theorem c6_code_lines (s : List Char) (h1 : '/' ∉ s) (h2 : '"' ∉ s) :
    parse (lex s) = some ((linesAux s []).map El.code) := by
  unfold parse
  rw [parseFull_code_run s [] [] h1 h2]
  simp

theorem c6_code_lines_witness :
    parse (lex "a*b\n\nc\nd".toList) =
      some [El.code "a*b".toList, El.code [], El.code ['c']] :=
  (c6_code_lines "a*b\n\nc\nd".toList (by decide) (by decide)).trans (by decide)

/-- C7: a trailing partial code run is absent from the output — if a run
ends in the `Code` state, extending the input by any nonflushing tail of
plain characters or stars leaves the emitted segments unchanged, and the
text accumulated for that tail never appears. -/
theorem c7_trailing_partial_dropped (ts us : List Token) (b : List Char)
    (p : List El)
    (hrun : parseFull ts State.code [] [] = some (State.code, b, p))
    (hus : ∀ u ∈ us,
      u ≠ Token.newLine ∧ u ≠ Token.frontSlash ∧ u ≠ Token.doubleQuote) :
    parse (ts ++ us) = some p ∧ parse ts = some p := by
  obtain ⟨b', hb⟩ := parseFull_chars_run us b p hus
  constructor
  · unfold parse
    rw [parseFull_append, hrun]
    simp [hb]
  · unfold parse
    rw [hrun]
    rfl

theorem c7_trailing_partial_dropped_witness :
    parse (lex "a\n".toList ++ [Token.char 'b', Token.star]) =
        some [El.code ['a']] ∧
      parse (lex "a\n".toList) = some [El.code ['a']] :=
  c7_trailing_partial_dropped (lex "a\n".toList) [Token.char 'b', Token.star]
    [] [El.code ['a']] (by decide) (by decide)

/-- C8, counterexample: idempotence fails as stated. `Code("ab")` recovered
from `ab\n` re-classifies to `[]` (the text has no trailing newline, so the
whole run is dropped), and `Code("a/b")` recovered from the string literal
`"a/b"` — a payload with no `//` or `/*` marker — even aborts on
re-classification. -/
theorem c8_idempotence_counterexample :
    (parse (lex "ab\n".toList) = some [El.code "ab".toList] ∧
      parse (lex "ab".toList) = some []) ∧
    (parse (lex "\"a/b\"".toList) = some [El.code "a/b".toList] ∧
      parse (lex "a/b".toList) = none) := by decide

/-- C8 (amended): re-classifying a recovered `Code` payload reproduces the
segment once its newline delimiter is reinserted and the payload contains
no `/`, `"` or newline: `classify(tokenize(t + "\n")) = [Code(t)]`. -/
theorem c8_idempotence_amended (t : List Char) (h1 : '/' ∉ t) (h2 : '"' ∉ t)
    (h3 : '\n' ∉ t) :
    parse (lex (t ++ ['\n'])) = some [El.code t] := by
  unfold parse
  have ha : '/' ∉ t ++ ['\n'] := by
    intro h
    rcases List.mem_append.mp h with h | h
    · exact h1 h
    · exact absurd h (by decide)
  have hb : '"' ∉ t ++ ['\n'] := by
    intro h
    rcases List.mem_append.mp h with h | h
    · exact h2 h
    · exact absurd h (by decide)
  rw [parseFull_code_run _ [] [] ha hb, linesAux_append_newline t [] h3]
  simp

theorem c8_idempotence_amended_witness :
    parse (lex ("let x = 1;".toList ++ ['\n'])) =
      some [El.code "let x = 1;".toList] :=
  c8_idempotence_amended "let x = 1;".toList (by decide) (by decide) (by decide)

/-- C9: the tokenizer is total, keeps one token per input character in the
original order, and realizes exactly the spec's character-to-token mapping
(`*`→Star, newline→NewLine, `/`→FrontSlash, `"`→DoubleQuote, other→Char). -/
theorem c9_tokenizer_map :
    ∀ s : List Char,
      lex s = s.map specCharToken ∧ (lex s).length = s.length := by
  intro s
  have h : lex s = s.map specCharToken := by
    induction s with
    | nil => rfl
    | cons c cs ih => simp [lex, ih, lexChar_spec]
  exact ⟨h, by rw [h, List.length_map]⟩

/-- C10: an input whose final token is a `/` reached from the `Code` state
does not abort: the machine ends in the disambiguation state, the `/`
itself is dropped, and the segments flushed up to and including that point
(the pending code run, if any, is flushed by the `/` itself) are returned. -/
theorem c10_trailing_slash_no_abort (ts : List Token) (b : List Char)
    (p : List El)
    (hrun : parseFull ts State.code [] [] = some (State.code, b, p)) :
    parse (ts ++ [Token.frontSlash]) =
      some (p ++ if b = [] then [] else [El.code b]) := by
  unfold parse
  rw [parseFull_append, hrun]
  by_cases hb : b = []
  · subst hb
    simp [parseFull, step]
  · simp [parseFull, step, hb]

theorem c10_trailing_slash_no_abort_witness :
    parse ([Token.char 'a'] ++ [Token.frontSlash]) = some [El.code ['a']] :=
  (c10_trailing_slash_no_abort [Token.char 'a'] ['a'] [] (by decide)).trans
    (by decide)

end FsmJavaComments
